import Mathlib

/-!
Verification of the PMU signal-simulator and feature-extractor modules of the
zero-trust-agent repository (`src/dsp/signal_simulator.py`,
`src/dsp/feature_extractor.py`).

Modelling conventions:
* numpy float arrays are modelled as `List ℝ`; float scalars coming from the
  program text (cutoffs, sampling rates, spike magnitudes) are modelled as
  exact rationals `ℚ` where only ordered-field arithmetic is performed on
  them, and as reals where they enter transcendental computations.
* Python's `round` (banker's rounding, i.e. round-half-to-even) is modelled by
  `roundHalfEven` on integer fractions, `pyRoundQ` on rationals and
  `pyRoundR`/`pyRound4` on reals (`round(x, 4)` is `pyRound4`).
* the floating-point products `0.40 * n` and `0.35 * n` in `generate_batch`
  are modelled bit-exactly in IEEE binary64 (`flNum`: the correctly rounded
  53-bit-mantissa product of the double nearest 0.40 resp. 0.35 with the
  integer `n`, which converts to double exactly for `n ≤ 2^53`), because
  Python's `round` is applied to the rounded product and the result is
  sensitive to it (e.g. `0.35 * 90 = 31.499999999999996` rounds to 31, while
  exact arithmetic would give `round(31.5) = 32`).
* random draws (`np.random.normal`, `np.random.uniform`, `np.random.randint`,
  `np.random.shuffle`) are universally-quantified parameters: the noise
  vectors are arbitrary functions, the spike value an arbitrary rational in
  the documented range, the spike index an arbitrary `Fin` index, and a
  shuffled batch an arbitrary permutation of the unshuffled batch.
* the scipy Butterworth design/application (`butter` + `filtfilt`) is not part
  of the repository; it is modelled as an arbitrary function
  `ℚ → ℚ → List ℝ → Option (List ℝ)` (normalized low/high cutoff and signal in,
  `none` meaning the caught `ValueError`/`LinAlgError`).
* code paths that raise an uncaught exception are modelled by `Option`-valued
  functions returning `none` (numpy fancy indexing out of range raises
  `IndexError`; `np.max` of an empty array raises `ValueError`).
-/

/-! ## Python rounding -/

/-- Python's `round(a/b)` for an integer fraction with positive denominator:
round half to even (banker's rounding). `a / b` and `a % b` are Lean's
Euclidean (= floor, for `b > 0`) division and remainder. -/
def roundHalfEven (a b : ℤ) : ℤ :=
  if 2 * (a % b) < b then a / b
  else if b < 2 * (a % b) then a / b + 1
  else if (a / b) % 2 = 0 then a / b
  else a / b + 1

/-- Python's `round(q)` on an exact rational. -/
def pyRoundQ (q : ℚ) : ℤ := roundHalfEven q.num q.den

open Classical in
/-- Python's `round(x)` on a real: round half to even. -/
noncomputable def pyRoundR (x : ℝ) : ℤ :=
  if x - ⌊x⌋ < 1/2 then ⌊x⌋
  else if (1:ℝ)/2 < x - ⌊x⌋ then ⌊x⌋ + 1
  else if ⌊x⌋ % 2 = 0 then ⌊x⌋
  else ⌊x⌋ + 1

/-- Python's `round(x, 4)`: round to 4 decimal digits. -/
noncomputable def pyRound4 (x : ℝ) : ℝ := (pyRoundR (x * 10000) : ℝ) / 10000

lemma pyRoundR_zero : pyRoundR 0 = 0 := by
  unfold pyRoundR
  norm_num

lemma pyRoundR_nonneg {x : ℝ} (h : 0 ≤ x) : 0 ≤ pyRoundR x := by
  unfold pyRoundR
  have h0 : (0:ℤ) ≤ ⌊x⌋ := Int.floor_nonneg.mpr h
  split_ifs <;> omega

lemma abs_pyRoundR_sub (x : ℝ) : |(pyRoundR x : ℝ) - x| ≤ 1/2 := by
  unfold pyRoundR
  have h1 : (⌊x⌋ : ℝ) ≤ x := Int.floor_le x
  have h2 : x < (⌊x⌋ : ℝ) + 1 := Int.lt_floor_add_one x
  split_ifs with ha hb hc <;> rw [abs_le] <;> constructor <;> push_cast <;> linarith

lemma pyRound4_zero : pyRound4 0 = 0 := by
  unfold pyRound4
  rw [zero_mul, pyRoundR_zero]
  norm_num

lemma pyRound4_nonneg {x : ℝ} (h : 0 ≤ x) : 0 ≤ pyRound4 x := by
  unfold pyRound4
  have := pyRoundR_nonneg (x := x * 10000) (by linarith)
  positivity

/-- A real is "rounded to 4 decimal digits" when it is an integer multiple of
`10⁻⁴`. -/
def isRound4 (x : ℝ) : Prop := ∃ k : ℤ, x = (k : ℝ) / 10000

lemma pyRound4_isRound4 (x : ℝ) : isRound4 (pyRound4 x) := ⟨pyRoundR (x * 10000), rfl⟩

lemma isRound4_zero : isRound4 0 := ⟨0, by norm_num⟩

lemma abs_pyRound4_sub (x : ℝ) : |pyRound4 x - x| ≤ 1/20000 := by
  unfold pyRound4
  have h := abs_pyRoundR_sub (x * 10000)
  have h2 : (pyRoundR (x * 10000) : ℝ) / 10000 - x
      = ((pyRoundR (x * 10000) : ℝ) - x * 10000) / 10000 := by ring
  rw [h2, abs_div, abs_of_pos (show (0:ℝ) < 10000 by norm_num)]
  linarith

lemma roundHalfEven_nonneg {a b : ℤ} (ha : 0 ≤ a) (hb : 0 < b) :
    0 ≤ roundHalfEven a b := by
  unfold roundHalfEven
  have h := Int.ediv_nonneg ha hb.le
  split_ifs <;> omega

/-- `roundHalfEven a b` never exceeds `a/b + 1/2` (stated multiplied out, for
`b > 0`). -/
lemma roundHalfEven_le (a b : ℤ) (hb : 0 < b) :
    2 * b * roundHalfEven a b ≤ 2 * a + b := by
  unfold roundHalfEven
  have h1 := Int.ediv_add_emod a b
  have h2 := Int.emod_nonneg a hb.ne'
  have h3 := Int.emod_lt_of_pos a hb
  split_ifs <;> nlinarith [h1, h2, h3]

/-! ### IEEE binary64 products

`generate_batch` computes `round(0.40 * n)` and `round(0.35 * n)` in double
precision. The literals 0.40 and 0.35 are not binary64 values; the doubles
nearest them are `FLOAT_0_40_NUM / 2^54` and `FLOAT_0_35_NUM / 2^54`, and the
product with an exactly-converted integer `n` is correctly rounded (to
nearest, ties to even mantissa) to 53 significant bits. `flNum M n` is that
product, scaled by `2^54` so that everything stays in `ℤ`. -/

/-- Number of binary digits of `n` (correct for `n < 2^128`, via fuel so that
the kernel can evaluate it). -/
def bitsAux : ℕ → ℕ → ℕ
  | 0, _ => 0
  | fuel + 1, n => if n = 0 then 0 else bitsAux fuel (n / 2) + 1

/-- Number of binary digits of `n < 2^128`. -/
def bits (n : ℕ) : ℕ := bitsAux 128 n

lemma bitsAux_zero (fuel : ℕ) : bitsAux fuel 0 = 0 := by
  cases fuel <;> rfl

lemma bitsAux_spec : ∀ (fuel n : ℕ), 0 < n → n < 2 ^ fuel →
    n < 2 ^ bitsAux fuel n ∧ 2 ^ bitsAux fuel n ≤ 2 * n := by
  intro fuel
  induction fuel with
  | zero =>
    intro n h0 h1
    simp at h1
    omega
  | succ f ih =>
    intro n h0 h1
    have hne : ¬ n = 0 := by omega
    show n < 2 ^ (if n = 0 then 0 else bitsAux f (n / 2) + 1)
      ∧ 2 ^ (if n = 0 then 0 else bitsAux f (n / 2) + 1) ≤ 2 * n
    rw [if_neg hne]
    by_cases hn1 : n = 1
    · subst hn1
      rw [show (1:ℕ)/2 = 0 by norm_num, bitsAux_zero]
      norm_num
    · have h2 : 2 ≤ n := by omega
      have hd0 : 0 < n / 2 := by omega
      have hdlt : n / 2 < 2 ^ f := by
        have : (2:ℕ) ^ (f + 1) = 2 * 2 ^ f := by ring
        omega
      obtain ⟨ha, hb⟩ := ih (n / 2) hd0 hdlt
      have hp : (2:ℕ) ^ (bitsAux f (n / 2) + 1) = 2 * 2 ^ bitsAux f (n / 2) := by ring
      omega

lemma bits_spec (n : ℕ) (h0 : 0 < n) (h : n < 2 ^ 128) :
    n < 2 ^ bits n ∧ 2 ^ bits n ≤ 2 * n :=
  bitsAux_spec 128 n h0 h

/-- Scaled mantissa of the IEEE binary64 double nearest to 0.40:
`float(0.40) = 7205759403792794 / 2^54 = 0.4000000000000000222…`
(certified by `float_0_40_num_correct`). -/
def FLOAT_0_40_NUM : ℕ := 7205759403792794

/-- Scaled mantissa of the IEEE binary64 double nearest to 0.35:
`float(0.35) = 6305039478318694 / 2^54 = 0.3499999999999999778…`
(certified by `float_0_35_num_correct`). -/
def FLOAT_0_35_NUM : ℕ := 6305039478318694

/-- `FLOAT_0_40_NUM` really is the correctly rounded 53-bit mantissa of 0.40
at the scale `2^54` (0.40 lies in `[2^-2, 2^-1)`, so its unit in the last
place is `2^-54`): it is the half-even rounding of `0.40 * 2^54 = 2^55/5`,
and it is normalized. -/
lemma float_0_40_num_correct :
    roundHalfEven (2 ^ 55) 5 = FLOAT_0_40_NUM
    ∧ 2 ^ 52 ≤ FLOAT_0_40_NUM ∧ FLOAT_0_40_NUM < 2 ^ 53 := by decide

/-- `FLOAT_0_35_NUM` really is the correctly rounded 53-bit mantissa of 0.35
at the scale `2^54`: the half-even rounding of `0.35 * 2^54 = 7 * 2^54 / 20`,
normalized. -/
lemma float_0_35_num_correct :
    roundHalfEven (7 * 2 ^ 54) 20 = FLOAT_0_35_NUM
    ∧ 2 ^ 52 ≤ FLOAT_0_35_NUM ∧ FLOAT_0_35_NUM < 2 ^ 53 := by decide

/-- The IEEE binary64 product `(M / 2^54) * n`, scaled by `2^54`: exact when
the integer `M * n` fits in 53 bits, else correctly rounded (half to even
mantissa) to 53 significant bits. Exponent overflow is unreachable for the
sizes involved here. -/
def flNum (M n : ℕ) : ℤ :=
  if bits (M * n) ≤ 53 then ((M * n : ℕ) : ℤ)
  else roundHalfEven ((M * n : ℕ) : ℤ) (2 ^ (bits (M * n) - 53)) * 2 ^ (bits (M * n) - 53)

lemma flNum_nonneg (M n : ℕ) : 0 ≤ flNum M n := by
  unfold flNum
  split_ifs
  · positivity
  · have h1 : (0:ℤ) ≤ roundHalfEven ((M * n : ℕ) : ℤ) (2 ^ (bits (M * n) - 53)) :=
      roundHalfEven_nonneg (by positivity) (by positivity)
    positivity

/-- Rounding to 53 bits increases the value by at most one part in `2^53`
(stated multiplied out). -/
lemma flNum_le (M n : ℕ) (h : M * n < 2 ^ 128) :
    2 ^ 53 * flNum M n ≤ 2 ^ 53 * ((M * n : ℕ) : ℤ) + ((M * n : ℕ) : ℤ) := by
  unfold flNum
  split_ifs with hbit
  · have hp : (0:ℤ) ≤ ((M * n : ℕ) : ℤ) := by positivity
    linarith
  · have hp0 : 0 < M * n := by
      rcases Nat.eq_zero_or_pos (M * n) with h0 | h0
      · rw [h0] at hbit
        rw [show bits 0 = 0 from bitsAux_zero 128] at hbit
        omega
      · exact h0
    obtain ⟨hlt, hle⟩ := bits_spec (M * n) hp0 h
    have hs : 54 ≤ bits (M * n) := by omega
    have hpow : (2:ℕ) ^ bits (M * n) = 2 ^ (bits (M * n) - 53) * 2 ^ 53 := by
      rw [← pow_add]
      congr 1
      omega
    have h3 : (2:ℤ) ^ (bits (M * n) - 53) * 2 ^ 53 ≤ 2 * ((M * n : ℕ) : ℤ) := by
      rw [hpow] at hle
      exact_mod_cast hle
    have h4 := roundHalfEven_le ((M * n : ℕ) : ℤ) (2 ^ (bits (M * n) - 53)) (by positivity)
    nlinarith [h3, h4]

/-! ## Signal simulator (`src/dsp/signal_simulator.py`) -/

/-- IEEE C37.118-style constant: nominal voltage, per unit. -/
def NOMINAL_VOLTAGE : ℝ := 1

/-- IEEE C37.118-style constant: nominal frequency in Hz. -/
def NOMINAL_FREQUENCY : ℝ := 50

/-- Samples per second. -/
def SAMPLING_RATE : ℝ := 50

/-- Samples per reading. -/
def SAMPLES_PER_READING : ℕ := 50

/-- A PMU reading dictionary (keys `voltage`, `frequency`, `anomaly_type`,
`severity`). -/
structure Reading where
  voltage : List ℝ
  frequency : List ℝ
  anomaly_type : String
  severity : String

/-- The sampled sine wave `amp * np.sin(2π * NOMINAL_FREQUENCY * t + π/4)`
with `t = np.arange(SAMPLES_PER_READING) / SAMPLING_RATE`, shared by
`generate_normal_signal` and `generate_point_anomaly` (which use
`amp = NOMINAL_VOLTAGE`). -/
noncomputable def pureSineWave (amp : ℝ) : List ℝ :=
  (List.range SAMPLES_PER_READING).map
    (fun (k : ℕ) => amp * Real.sin (2 * Real.pi * NOMINAL_FREQUENCY * ((k : ℝ) / SAMPLING_RATE)
      + Real.pi / 4))

/-- The frequency channel `NOMINAL_FREQUENCY + np.random.normal(0, 0.01, 50)`;
the noise draw is the parameter. -/
noncomputable def frequencyChannel (noise : Fin SAMPLES_PER_READING → ℝ) : List ℝ :=
  List.ofFn (fun i => NOMINAL_FREQUENCY + noise i)

/-- `generate_normal_signal()`; the random frequency-noise vector is the
parameter. -/
noncomputable def generate_normal_signal (noise : Fin SAMPLES_PER_READING → ℝ) : Reading :=
  { voltage := pureSineWave NOMINAL_VOLTAGE
  , frequency := frequencyChannel noise
  , anomaly_type := "none"
  , severity := "none" }

/-- `generate_point_anomaly()`; the random draws (frequency noise, the uniform
spike value from `[1.3, 1.5]`, the spike index from `randint(0, 50)`) are
parameters. -/
noncomputable def generate_point_anomaly (noise : Fin SAMPLES_PER_READING → ℝ)
    (spike_value : ℚ) (spike_index : Fin SAMPLES_PER_READING) : Reading :=
  { voltage := (pureSineWave NOMINAL_VOLTAGE).set spike_index (spike_value : ℝ)
  , frequency := frequencyChannel noise
  , anomaly_type := "point"
  , severity := if (1.4 : ℚ) < spike_value then "high" else "medium" }

/-- `generate_trend_anomaly()`; voltage envelope is
`np.linspace(NOMINAL_VOLTAGE, 1.2, 50)`, element `k` being
`1 + (1.2 - 1) * k / 49`. -/
noncomputable def generate_trend_anomaly (noise : Fin SAMPLES_PER_READING → ℝ) : Reading :=
  { voltage := (List.range SAMPLES_PER_READING).map
      (fun (k : ℕ) => (NOMINAL_VOLTAGE + (1.2 - NOMINAL_VOLTAGE) * (k : ℝ) / ((SAMPLES_PER_READING : ℝ) - 1))
        * Real.sin (2 * Real.pi * NOMINAL_FREQUENCY * ((k : ℝ) / SAMPLING_RATE) + Real.pi / 4))
  , frequency := frequencyChannel noise
  , anomaly_type := "trend"
  , severity := "medium" }

/-- `n_normal = int(round(0.40 * n))` in `generate_batch`: Python's
half-even `round` of the binary64 product `float(0.40) * n`, whose exact
value is `flNum FLOAT_0_40_NUM n / 2^54` (rounding an integer fraction does
not depend on its reduction, so the unreduced fraction is rounded directly;
faithful for `n ≤ 2^53`, where `n` converts to double exactly). -/
def n_normal (n : ℕ) : ℤ := roundHalfEven (flNum FLOAT_0_40_NUM n) (2 ^ 54)

/-- `n_point = int(round(0.35 * n))` in `generate_batch`: Python's half-even
`round` of the binary64 product `float(0.35) * n`, with exact value
`flNum FLOAT_0_35_NUM n / 2^54` (faithful for `n ≤ 2^53`). Note this is NOT
the exact-arithmetic `round(7n/20)`: e.g. at `n = 90` the product is
`31.499999999999996…`, which rounds to 31, not 32. -/
def n_point (n : ℕ) : ℤ := roundHalfEven (flNum FLOAT_0_35_NUM n) (2 ^ 54)

/-- `n_trend = n - n_normal - n_point` in `generate_batch`. -/
def n_trend (n : ℕ) : ℤ := n - n_normal n - n_point n

/-- The list built by `generate_batch(n)` before `np.random.shuffle`: the
normal readings, then the point anomalies, then the trend anomalies (a
`range` over a negative count is empty, hence `Int.toNat`). The random draws
of the individual readings are the indexed parameters. -/
noncomputable def generate_batch (n : ℕ)
    (normalNoise : ℕ → Fin SAMPLES_PER_READING → ℝ)
    (pointNoise : ℕ → Fin SAMPLES_PER_READING → ℝ)
    (pointSpike : ℕ → ℚ)
    (pointIdx : ℕ → Fin SAMPLES_PER_READING)
    (trendNoise : ℕ → Fin SAMPLES_PER_READING → ℝ) : List Reading :=
  (List.range (n_normal n).toNat).map (fun i => generate_normal_signal (normalNoise i))
    ++ (List.range (n_point n).toNat).map
        (fun i => generate_point_anomaly (pointNoise i) (pointSpike i) (pointIdx i))
    ++ (List.range (n_trend n).toNat).map (fun i => generate_trend_anomaly (trendNoise i))

lemma n_normal_nonneg (n : ℕ) : 0 ≤ n_normal n :=
  roundHalfEven_nonneg (flNum_nonneg _ _) (by positivity)

lemma n_point_nonneg (n : ℕ) : 0 ≤ n_point n :=
  roundHalfEven_nonneg (flNum_nonneg _ _) (by positivity)

/-- The two rounded float counts never exceed `n`: each is at most the exact
product plus one part in `2^53` plus one half, and the exact products sum to
exactly `3n/4` (the two mantissas add up to `3 * 2^52`). -/
lemma n_counts_le (n : ℕ) (hn : n ≤ 2 ^ 53) : n_normal n + n_point n ≤ n := by
  by_cases hsmall : n ≤ 1
  · interval_cases n <;> decide
  · have h2 : 2 ≤ n := by omega
    have hb40 : FLOAT_0_40_NUM * n < 2 ^ 128 := by
      calc FLOAT_0_40_NUM * n ≤ FLOAT_0_40_NUM * 2 ^ 53 :=
            Nat.mul_le_mul_left _ hn
        _ < 2 ^ 128 := by norm_num [FLOAT_0_40_NUM]
    have hb35 : FLOAT_0_35_NUM * n < 2 ^ 128 := by
      calc FLOAT_0_35_NUM * n ≤ FLOAT_0_35_NUM * 2 ^ 53 :=
            Nat.mul_le_mul_left _ hn
        _ < 2 ^ 128 := by norm_num [FLOAT_0_35_NUM]
    have h40 := flNum_le FLOAT_0_40_NUM n hb40
    have h35 := flNum_le FLOAT_0_35_NUM n hb35
    have hr40 := roundHalfEven_le (flNum FLOAT_0_40_NUM n) (2 ^ 54) (by positivity)
    have hr35 := roundHalfEven_le (flNum FLOAT_0_35_NUM n) (2 ^ 54) (by positivity)
    have hc40 : ((FLOAT_0_40_NUM * n : ℕ) : ℤ) = 7205759403792794 * (n : ℤ) := by
      push_cast [FLOAT_0_40_NUM]
      ring
    have hc35 : ((FLOAT_0_35_NUM * n : ℕ) : ℤ) = 6305039478318694 * (n : ℤ) := by
      push_cast [FLOAT_0_35_NUM]
      ring
    rw [hc40] at h40
    rw [hc35] at h35
    have hn2 : (2:ℤ) ≤ (n : ℤ) := by exact_mod_cast h2
    unfold n_normal n_point
    linarith [h40, h35, hr40, hr35, hn2]

lemma n_trend_nonneg (n : ℕ) (hn : n ≤ 2 ^ 53) : 0 ≤ n_trend n := by
  unfold n_trend
  have := n_counts_le n hn
  omega

lemma n_counts_sum (n : ℕ) : n_normal n + n_point n + n_trend n = n := by
  unfold n_trend
  ring

lemma generate_batch_length (n : ℕ) (hn : n ≤ 2 ^ 53) (f1 f2 f3 f4 f5) :
    (generate_batch n f1 f2 f3 f4 f5).length = n := by
  unfold generate_batch
  simp only [List.length_append, List.length_map, List.length_range]
  have h1 := n_normal_nonneg n
  have h2 := n_point_nonneg n
  have h3 := n_trend_nonneg n hn
  have h4 := n_counts_sum n
  omega

/-! ## Feature extractor (`src/dsp/feature_extractor.py`) -/

/-- `bandpass_filter(signal, lowcut, highcut, fs, order=3)`. The scipy call
`filtfilt(*butter(order, [low, high], btype="band"), signal)` is the opaque
parameter `bf` (applied to the normalized cutoffs and the signal);
`bf … = none` models the caught `ValueError`/`np.linalg.LinAlgError`. -/
def bandpass_filter (bf : ℚ → ℚ → List ℝ → Option (List ℝ)) (signal : List ℝ)
    (lowcut highcut fs : ℚ) : List ℝ :=
  if 1 ≤ lowcut / (0.5 * fs) ∨ 1 ≤ highcut / (0.5 * fs)
      ∨ lowcut / (0.5 * fs) ≤ 0 ∨ highcut / (0.5 * fs) ≤ 0 then signal
  else
    match bf (lowcut / (0.5 * fs)) (highcut / (0.5 * fs)) signal with
    | some filtered => filtered
    | none => signal

open Classical in
/-- `compute_rms(signal)`: `sqrt(mean(signal ** 2))`, rounded to 4 decimals;
`0.0` on an empty signal. -/
noncomputable def compute_rms (signal : List ℝ) : ℝ :=
  if signal.length = 0 then 0
  else pyRound4 (Real.sqrt ((signal.map (fun v => v ^ 2)).sum / signal.length))

/-- Magnitude of bin `k` of the `n_fft`-point DFT of `signal`
(`np.abs(fft.fft(signal, n=n_fft))[k]`): the signal is zero-padded (or
truncated) to `n_fft` samples. -/
noncomputable def dftAbs (signal : List ℝ) (n_fft : ℕ) (k : ℕ) : ℝ :=
  Complex.abs (∑ j in Finset.range n_fft,
    ((signal.getD j 0 : ℝ) : ℂ)
      * Complex.exp (-(2 * (Real.pi : ℂ) * Complex.I * (j : ℂ) * (k : ℂ)) / (n_fft : ℂ)))

/-- The local `n_fft = max(n, 2 ** int(np.ceil(np.log2(n))))` of
`compute_thd` (`Nat.clog 2` is the ceiling of the base-2 logarithm). -/
def thdNfft (n : ℕ) : ℕ := max n (2 ^ Nat.clog 2 n)

/-- The local `fund_bin = max(1, min(int(round(fundamental * n_fft / fs)), half))`
of `compute_thd`, where `half = n_fft // 2`. -/
def thdFundBin (n_fft : ℕ) (fs fundamental : ℚ) : ℕ :=
  (max 1 (min (pyRoundQ (fundamental * n_fft / fs)) ((n_fft / 2 : ℕ) : ℤ))).toNat

open Classical in
/-- `compute_thd(signal, fs=50, fundamental=50.0)`. Returns `none` when the
fundamental-bin lookup `spectrum[fund_bin]` would raise `IndexError` (the bin
lies beyond the half-spectrum slice `spectrum[: half + 1]`, which happens for
length-1 signals where `half = 0` but `fund_bin` is clamped up to 1). -/
noncomputable def compute_thd (signal : List ℝ) (fs fundamental : ℚ) : Option ℝ :=
  if signal.length = 0 then some 0
  else if thdNfft signal.length / 2 < thdFundBin (thdNfft signal.length) fs fundamental then
    none
  else if dftAbs signal (thdNfft signal.length)
      (thdFundBin (thdNfft signal.length) fs fundamental) ≤ 0 then some 0
  else some (pyRound4 (100 * Real.sqrt
    (∑ h in Finset.Ico 2 6,
      if h * thdFundBin (thdNfft signal.length) fs fundamental ≤ thdNfft signal.length / 2
      then dftAbs signal (thdNfft signal.length)
        (h * thdFundBin (thdNfft signal.length) fs fundamental) ^ 2
      else 0)
    / dftAbs signal (thdNfft signal.length) (thdFundBin (thdNfft signal.length) fs fundamental)))

open Classical in
/-- `compute_frequency_deviation(frequency_array)`: mean of `|arr - 50.0|`,
rounded to 4 decimals; `0.0` on empty input. -/
noncomputable def compute_frequency_deviation (frequency_array : List ℝ) : ℝ :=
  if frequency_array.length = 0 then 0
  else pyRound4 ((frequency_array.map (fun v => |v - 50|)).sum / frequency_array.length)

/-- `np.max` of a list: `none` on an empty array (numpy raises `ValueError`). -/
def npMax (l : List ℝ) : Option ℝ :=
  match l with
  | [] => none
  | x :: xs => some (xs.foldl max x)

/-- The feature dictionary returned by `extract_features`. -/
structure Features where
  rms_voltage : ℝ
  thd_percent : ℝ
  frequency_deviation_hz : ℝ
  peak_voltage : ℝ
  anomaly_type : String
  severity : String

/-- `extract_features(reading)`. `none` models an uncaught exception: the
`IndexError` out of `compute_thd`, or the `ValueError` of `np.max` on an
empty filtered array. RMS/THD/frequency deviation use the raw arrays; only
`peak_voltage` uses the band-pass-filtered voltage. -/
noncomputable def extract_features (bf : ℚ → ℚ → List ℝ → Option (List ℝ))
    (reading : Reading) : Option Features :=
  match compute_thd reading.voltage 50 50 with
  | none => none
  | some thd =>
    match npMax ((bandpass_filter bf reading.voltage 45 55 50).map (fun v => |v|)) with
    | none => none
    | some m => some
        { rms_voltage := compute_rms reading.voltage
        , thd_percent := thd
        , frequency_deviation_hz := compute_frequency_deviation reading.frequency
        , peak_voltage := pyRound4 m
        , anomaly_type := reading.anomaly_type
        , severity := reading.severity }

/-! ## Spec-side definitions

These follow the wording of the specification (for the refinement-style
claims); they are compared with the source-derived definitions above. -/

/-- Modelled from the spec: "the next power-of-two length >= the signal
length" (`Nat.clog` is the ceiling of the base-2 logarithm). -/
def nextPow2 (n : ℕ) : ℕ := 2 ^ Nat.clog 2 n

open Classical in
/-- Modelled from the spec: THD as described there — zero-pad to the next
power of two, take the magnitude spectrum on the half-spectrum slice, locate
the fundamental bin as `round(fundamental * n_fft / fs)` clamped to
`[1, n_fft/2]`, return 0 when the fundamental magnitude is ≤ 0, else
`100 * sqrt(sum of squared harmonic magnitudes at bins 2×..5×, skipping bins
beyond the half spectrum) / fundamental magnitude`, rounded to 4 decimals. -/
noncomputable def thdSpec (signal : List ℝ) (fs fundamental : ℚ) : ℝ :=
  if dftAbs signal (nextPow2 signal.length)
      (thdFundBin (nextPow2 signal.length) fs fundamental) ≤ 0 then 0
  else pyRound4 (100 * Real.sqrt
    (∑ h in Finset.Ico 2 6,
      if h * thdFundBin (nextPow2 signal.length) fs fundamental ≤ nextPow2 signal.length / 2
      then dftAbs signal (nextPow2 signal.length)
        (h * thdFundBin (nextPow2 signal.length) fs fundamental) ^ 2
      else 0)
    / dftAbs signal (nextPow2 signal.length) (thdFundBin (nextPow2 signal.length) fs fundamental))

open Classical in
/-- Modelled from the spec: "square-root of the mean of squared samples",
rounded to 4 decimals, `0.0` for an empty input. -/
noncomputable def rmsSpec (signal : List ℝ) : ℝ :=
  if signal = [] then 0
  else pyRound4 (Real.sqrt ((signal.map (fun v => v ^ 2)).sum / signal.length))

/-! ## Helper lemmas -/

lemma bandpass_identity (bf : ℚ → ℚ → List ℝ → Option (List ℝ)) (sig : List ℝ) :
    bandpass_filter bf sig 45 55 50 = sig := by
  unfold bandpass_filter
  norm_num

lemma nextPow2_ge (n : ℕ) : n ≤ nextPow2 n := Nat.le_pow_clog (by norm_num) n

lemma nextPow2_least (n m : ℕ) (h : n ≤ 2 ^ m) : nextPow2 n ≤ 2 ^ m :=
  Nat.pow_le_pow_right (by norm_num) ((Nat.le_pow_iff_clog_le (by norm_num)).mp h)

lemma thdNfft_eq_nextPow2 (n : ℕ) : thdNfft n = nextPow2 n :=
  max_eq_right (nextPow2_ge n)

lemma thdFundBin_le_half (n_fft : ℕ) (fs fund : ℚ) (h : 2 ≤ n_fft) :
    thdFundBin n_fft fs fund ≤ n_fft / 2 := by
  have hhalf : 1 ≤ n_fft / 2 := (Nat.one_le_div_iff (by norm_num)).mpr h
  unfold thdFundBin
  rw [Int.toNat_le]
  exact max_le (by exact_mod_cast hhalf) (min_le_right _ _)

lemma compute_thd_eq_thdSpec (sig : List ℝ) (fs fund : ℚ) (h : 2 ≤ sig.length) :
    compute_thd sig fs fund = some (thdSpec sig fs fund) := by
  have hlen : ¬ sig.length = 0 := by omega
  have h2 : 2 ≤ nextPow2 sig.length := le_trans h (nextPow2_ge _)
  have hbin : ¬ thdNfft sig.length / 2 < thdFundBin (thdNfft sig.length) fs fund := by
    rw [thdNfft_eq_nextPow2]
    exact Nat.not_lt.mpr (thdFundBin_le_half _ _ _ h2)
  unfold compute_thd thdSpec
  rw [if_neg hlen, if_neg hbin, thdNfft_eq_nextPow2]
  split_ifs <;> rfl

lemma dftAbs_replicate_zero (n nfft k : ℕ) :
    dftAbs (List.replicate n (0:ℝ)) nfft k = 0 := by
  unfold dftAbs
  have hz : ∀ j : ℕ, (List.replicate n (0:ℝ)).getD j 0 = 0 := by
    intro j
    rw [List.getD_eq_getElem?_getD, List.getElem?_replicate]
    split <;> rfl
  have hs : (∑ j in Finset.range nfft,
      (((List.replicate n (0:ℝ)).getD j 0 : ℝ) : ℂ)
        * Complex.exp (-(2 * (Real.pi : ℂ) * Complex.I * (j : ℂ) * (k : ℂ)) / (nfft : ℂ)))
      = 0 := by
    apply Finset.sum_eq_zero
    intro j _
    rw [hz j]
    simp
  rw [hs]
  simp

lemma compute_thd_replicate_zero (n : ℕ) (fs fund : ℚ) (h : 2 ≤ n) :
    compute_thd (List.replicate n (0:ℝ)) fs fund = some 0 := by
  rw [compute_thd_eq_thdSpec _ _ _ (by simpa using h)]
  unfold thdSpec
  rw [dftAbs_replicate_zero]
  norm_num

lemma compute_rms_replicate_zero (n : ℕ) : compute_rms (List.replicate n (0:ℝ)) = 0 := by
  unfold compute_rms
  split_ifs with h
  · rfl
  · have hm : (List.replicate n (0:ℝ)).map (fun v => v ^ 2) = List.replicate n 0 := by
      simp [List.map_replicate]
    rw [hm]
    simp [List.sum_replicate, pyRound4_zero]

lemma foldl_max_replicate_zero : ∀ m : ℕ, List.foldl max (0:ℝ) (List.replicate m 0) = 0 := by
  intro m
  induction m with
  | zero => rfl
  | succ k ih => simpa [List.replicate_succ] using ih

lemma npMax_replicate_zero (n : ℕ) (h : 1 ≤ n) :
    npMax (List.replicate n (0:ℝ)) = some 0 := by
  obtain ⟨m, rfl⟩ : ∃ m, n = m + 1 := ⟨n - 1, by omega⟩
  rw [List.replicate_succ]
  show some (List.foldl max 0 (List.replicate m 0)) = some 0
  rw [foldl_max_replicate_zero]

lemma extract_features_replicate_zero (bf : ℚ → ℚ → List ℝ → Option (List ℝ))
    (fr : List ℝ) (a s : String) (n : ℕ) (h : 2 ≤ n) :
    extract_features bf ⟨List.replicate n 0, fr, a, s⟩
      = some ⟨0, 0, compute_frequency_deviation fr, 0, a, s⟩ := by
  have hm : (List.replicate n (0:ℝ)).map (fun v => |v|) = List.replicate n 0 := by
    simp [List.map_replicate]
  have h1 := compute_thd_replicate_zero n 50 50 h
  have h2 := npMax_replicate_zero n (by omega)
  simp only [extract_features, bandpass_identity, hm, h1, h2,
    compute_rms_replicate_zero, pyRound4_zero]

lemma compute_thd_isRound4_nonneg {sig : List ℝ} {fs fund : ℚ} {t : ℝ}
    (h : compute_thd sig fs fund = some t) : isRound4 t ∧ 0 ≤ t := by
  unfold compute_thd at h
  split_ifs at h with h1 h2 h3
  · cases h
    exact ⟨isRound4_zero, le_refl 0⟩
  · cases h
    exact ⟨isRound4_zero, le_refl 0⟩
  · cases h
    have hpos : 0 < dftAbs sig (thdNfft sig.length)
        (thdFundBin (thdNfft sig.length) fs fund) := lt_of_not_le h3
    have key : ∀ S A : ℝ, 0 < A → 0 ≤ 100 * Real.sqrt S / A := by
      intro S A hA
      have hS := Real.sqrt_nonneg S
      positivity
    exact ⟨pyRound4_isRound4 _, pyRound4_nonneg (key _ _ hpos)⟩

lemma compute_rms_isRound4_nonneg (sig : List ℝ) :
    isRound4 (compute_rms sig) ∧ 0 ≤ compute_rms sig := by
  unfold compute_rms
  split_ifs
  · exact ⟨isRound4_zero, le_refl 0⟩
  · exact ⟨pyRound4_isRound4 _, pyRound4_nonneg (Real.sqrt_nonneg _)⟩

lemma compute_frequency_deviation_isRound4_nonneg (fr : List ℝ) :
    isRound4 (compute_frequency_deviation fr) ∧ 0 ≤ compute_frequency_deviation fr := by
  unfold compute_frequency_deviation
  split_ifs
  · exact ⟨isRound4_zero, le_refl 0⟩
  · refine ⟨pyRound4_isRound4 _, pyRound4_nonneg (div_nonneg ?_ (Nat.cast_nonneg _))⟩
    apply List.sum_nonneg
    intro x hx
    obtain ⟨v, _, rfl⟩ := List.mem_map.mp hx
    exact abs_nonneg _

lemma foldl_max_nonneg {a : ℝ} (ha : 0 ≤ a) : ∀ l : List ℝ, 0 ≤ List.foldl max a l := by
  intro l
  induction l generalizing a with
  | nil => simpa using ha
  | cons x xs ih => exact ih (le_trans ha (le_max_left a x))

lemma npMax_map_abs_nonneg {l : List ℝ} {m : ℝ}
    (h : npMax (l.map (fun v => |v|)) = some m) : 0 ≤ m := by
  cases l with
  | nil => cases h
  | cons x xs =>
    simp only [List.map_cons, npMax] at h
    cases h
    exact foldl_max_nonneg (abs_nonneg x) _

lemma pureSineWave_length (amp : ℝ) : (pureSineWave amp).length = 50 := by
  unfold pureSineWave
  rw [List.length_map, List.length_range]
  rfl

lemma frequencyChannel_length (noise : Fin SAMPLES_PER_READING → ℝ) :
    (frequencyChannel noise).length = 50 := by
  unfold frequencyChannel
  rw [List.length_ofFn]
  rfl

lemma pureSineWave_eq_replicate (amp : ℝ) :
    pureSineWave amp = List.replicate 50 (amp * (Real.sqrt 2 / 2)) := by
  apply List.eq_replicate_iff.mpr
  refine ⟨pureSineWave_length amp, ?_⟩
  intro b hb
  unfold pureSineWave at hb
  obtain ⟨k, _, rfl⟩ := List.mem_map.mp hb
  have harg : 2 * Real.pi * NOMINAL_FREQUENCY * ((k : ℝ) / SAMPLING_RATE) + Real.pi / 4
      = Real.pi / 4 + (k : ℝ) * (2 * Real.pi) := by
    unfold NOMINAL_FREQUENCY SAMPLING_RATE
    ring
  rw [harg, Real.sin_add_nat_mul_two_pi, Real.sin_pi_div_four]

lemma compute_rms_pureSineWave (A : ℝ) (hA : 0 ≤ A) :
    compute_rms (pureSineWave A) = pyRound4 (A / Real.sqrt 2) := by
  rw [pureSineWave_eq_replicate]
  unfold compute_rms
  rw [if_neg (by simp)]
  have hmap : (List.replicate 50 (A * (Real.sqrt 2 / 2))).map (fun v => v ^ 2)
      = List.replicate 50 ((A * (Real.sqrt 2 / 2)) ^ 2) := by
    simp [List.map_replicate]
  rw [hmap, List.sum_replicate]
  have hsq : Real.sqrt 2 * Real.sqrt 2 = 2 := Real.mul_self_sqrt (by norm_num)
  have hsnn : (0:ℝ) ≤ Real.sqrt 2 := Real.sqrt_nonneg 2
  have hspos : (0:ℝ) < Real.sqrt 2 := by nlinarith
  have hmean : (((50 : ℕ) • ((A * (Real.sqrt 2 / 2)) ^ 2)) : ℝ)
      / ((List.replicate 50 (A * (Real.sqrt 2 / 2))).length : ℝ)
      = (A / Real.sqrt 2) ^ 2 := by
    rw [List.length_replicate, nsmul_eq_mul]
    push_cast
    field_simp
    nlinarith [sq_nonneg A]
  rw [hmean, Real.sqrt_sq (div_nonneg hA hsnn)]

lemma pyRound4_inv_sqrt_two : pyRound4 ((1 : ℝ) / Real.sqrt 2) = 7071 / 10000 := by
  have hsq : Real.sqrt 2 * Real.sqrt 2 = 2 := Real.mul_self_sqrt (by norm_num)
  have hsnn : (0:ℝ) ≤ Real.sqrt 2 := Real.sqrt_nonneg 2
  have hspos : (0:ℝ) < Real.sqrt 2 := by nlinarith
  have hmul : (1 : ℝ) / Real.sqrt 2 * 10000 = 5000 * Real.sqrt 2 := by
    field_simp
    nlinarith
  unfold pyRound4
  rw [hmul]
  have hfl : ⌊(5000 : ℝ) * Real.sqrt 2⌋ = 7071 := by
    rw [Int.floor_eq_iff]
    constructor
    · push_cast
      nlinarith
    · push_cast
      nlinarith
  unfold pyRoundR
  rw [hfl, if_pos (by push_cast; nlinarith)]
  norm_num

/-! ### Batch counting and membership -/

lemma batch_count_none (n : ℕ) (f1 f2 : ℕ → Fin SAMPLES_PER_READING → ℝ) (f3 : ℕ → ℚ)
    (f4 : ℕ → Fin SAMPLES_PER_READING) (f5 : ℕ → Fin SAMPLES_PER_READING → ℝ) :
    (generate_batch n f1 f2 f3 f4 f5).countP (fun r => r.anomaly_type == "none")
      = (n_normal n).toNat := by
  unfold generate_batch
  rw [List.countP_append, List.countP_append, List.countP_map, List.countP_map,
    List.countP_map]
  have e1 : List.countP ((fun r => r.anomaly_type == "none") ∘ fun i => generate_normal_signal (f1 i))
      (List.range (n_normal n).toNat) = (List.range (n_normal n).toNat).length :=
    List.countP_eq_length.mpr (fun a _ => rfl)
  have e2 : List.countP ((fun r => r.anomaly_type == "none") ∘ fun i => generate_point_anomaly (f2 i) (f3 i) (f4 i))
      (List.range (n_point n).toNat) = 0 :=
    List.countP_eq_zero.mpr (fun a _ h => Bool.noConfusion h)
  have e3 : List.countP ((fun r => r.anomaly_type == "none") ∘ fun i => generate_trend_anomaly (f5 i))
      (List.range (n_trend n).toNat) = 0 :=
    List.countP_eq_zero.mpr (fun a _ h => Bool.noConfusion h)
  rw [e1, e2, e3, List.length_range]
  omega

lemma batch_count_point (n : ℕ) (f1 f2 : ℕ → Fin SAMPLES_PER_READING → ℝ) (f3 : ℕ → ℚ)
    (f4 : ℕ → Fin SAMPLES_PER_READING) (f5 : ℕ → Fin SAMPLES_PER_READING → ℝ) :
    (generate_batch n f1 f2 f3 f4 f5).countP (fun r => r.anomaly_type == "point")
      = (n_point n).toNat := by
  unfold generate_batch
  rw [List.countP_append, List.countP_append, List.countP_map, List.countP_map,
    List.countP_map]
  have e1 : List.countP ((fun r => r.anomaly_type == "point") ∘ fun i => generate_normal_signal (f1 i))
      (List.range (n_normal n).toNat) = 0 :=
    List.countP_eq_zero.mpr (fun a _ h => Bool.noConfusion h)
  have e2 : List.countP ((fun r => r.anomaly_type == "point") ∘ fun i => generate_point_anomaly (f2 i) (f3 i) (f4 i))
      (List.range (n_point n).toNat) = (List.range (n_point n).toNat).length :=
    List.countP_eq_length.mpr (fun a _ => rfl)
  have e3 : List.countP ((fun r => r.anomaly_type == "point") ∘ fun i => generate_trend_anomaly (f5 i))
      (List.range (n_trend n).toNat) = 0 :=
    List.countP_eq_zero.mpr (fun a _ h => Bool.noConfusion h)
  rw [e1, e2, e3, List.length_range]
  omega

lemma batch_count_trend (n : ℕ) (f1 f2 : ℕ → Fin SAMPLES_PER_READING → ℝ) (f3 : ℕ → ℚ)
    (f4 : ℕ → Fin SAMPLES_PER_READING) (f5 : ℕ → Fin SAMPLES_PER_READING → ℝ) :
    (generate_batch n f1 f2 f3 f4 f5).countP (fun r => r.anomaly_type == "trend")
      = (n_trend n).toNat := by
  unfold generate_batch
  rw [List.countP_append, List.countP_append, List.countP_map, List.countP_map,
    List.countP_map]
  have e1 : List.countP ((fun r => r.anomaly_type == "trend") ∘ fun i => generate_normal_signal (f1 i))
      (List.range (n_normal n).toNat) = 0 :=
    List.countP_eq_zero.mpr (fun a _ h => Bool.noConfusion h)
  have e2 : List.countP ((fun r => r.anomaly_type == "trend") ∘ fun i => generate_point_anomaly (f2 i) (f3 i) (f4 i))
      (List.range (n_point n).toNat) = 0 :=
    List.countP_eq_zero.mpr (fun a _ h => Bool.noConfusion h)
  have e3 : List.countP ((fun r => r.anomaly_type == "trend") ∘ fun i => generate_trend_anomaly (f5 i))
      (List.range (n_trend n).toNat) = (List.range (n_trend n).toNat).length :=
    List.countP_eq_length.mpr (fun a _ => rfl)
  rw [e1, e2, e3, List.length_range]
  omega

lemma mem_generate_batch {n : ℕ} {f1 f2 : ℕ → Fin SAMPLES_PER_READING → ℝ} {f3 : ℕ → ℚ}
    {f4 : ℕ → Fin SAMPLES_PER_READING} {f5 : ℕ → Fin SAMPLES_PER_READING → ℝ} {r : Reading}
    (h : r ∈ generate_batch n f1 f2 f3 f4 f5) :
    (∃ i, r = generate_normal_signal (f1 i))
    ∨ (∃ i, r = generate_point_anomaly (f2 i) (f3 i) (f4 i))
    ∨ (∃ i, r = generate_trend_anomaly (f5 i)) := by
  unfold generate_batch at h
  rcases List.mem_append.mp h with h12 | h3
  · rcases List.mem_append.mp h12 with h1 | h2
    · obtain ⟨i, _, rfl⟩ := List.mem_map.mp h1
      exact Or.inl ⟨i, rfl⟩
    · obtain ⟨i, _, rfl⟩ := List.mem_map.mp h2
      exact Or.inr (Or.inl ⟨i, rfl⟩)
  · obtain ⟨i, _, rfl⟩ := List.mem_map.mp h3
    exact Or.inr (Or.inr ⟨i, rfl⟩)

/-! ### Concrete parameter instances used by the witnesses -/

/-- A zero noise vector (one admissible draw of `np.random.normal`). -/
def noiseZero : ℕ → Fin SAMPLES_PER_READING → ℝ := fun _ _ => 0

/-- A constant spike draw of 1.45 pu (admissible for `uniform(1.3, 1.5)`). -/
def spikeConst : ℕ → ℚ := fun _ => 1.45

/-- A constant spike index 0 (admissible for `randint(0, 50)`). -/
def idxZero : ℕ → Fin SAMPLES_PER_READING := fun _ => ⟨0, by decide⟩

lemma compute_thd_singleton (x : ℝ) (fs fund : ℚ) : compute_thd [x] fs fund = none := by
  have hn : thdNfft ([x]).length = 1 := by
    show thdNfft 1 = 1
    unfold thdNfft
    rw [Nat.clog_one_right]
    rfl
  have hb : thdFundBin 1 fs fund = 1 := by
    unfold thdFundBin
    have hm : max 1 (min (pyRoundQ (fund * ((1:ℕ) : ℚ) / fs)) (((1 / 2 : ℕ) : ℤ))) = 1 := by
      apply max_eq_left
      refine le_trans (min_le_right _ _) ?_
      norm_num
    rw [hm]
    rfl
  unfold compute_thd
  rw [if_neg (by simp), hn, hb, if_pos (by norm_num)]

/-! ## Claims -/

/-- C1 counterexample: at `n = 90` the program's batch contains 31
point-anomaly readings, because the binary64 product
`0.35 * 90 = 31.499999999999996…` rounds to 31 — not the exact-arithmetic
`round(0.35 · 90) = round(63/2) = 32` that the claim's count formula gives
(63/2 is a tie; both the half-even and the half-away conventions round it to
32, `roundHalfEven (7 * 90) 20` being the half-even reading of the claim's
`round(0.35 n)`). -/
theorem c1_point_count_counterexample :
    (generate_batch 90 noiseZero noiseZero spikeConst idxZero noiseZero).countP
        (fun r => r.anomaly_type == "point") = 31
    ∧ roundHalfEven (7 * 90) 20 = 32
    ∧ (31 : ℕ) ≠ 32 := by
  refine ⟨?_, by decide, by decide⟩
  rw [batch_count_point]
  decide

/-- C1 (amended): for every integer `0 ≤ n ≤ 2^53` (the range where `n`
converts to binary64 exactly), `generate_batch(n)` returns exactly `n`
readings: `n_normal n = round(float(0.40) * n)` with anomaly type `"none"`,
`n_point n = round(float(0.35) * n)` with `"point"` — the rounds of the IEEE
double products, which can differ from exact `round(0.40 n)`/`round(0.35 n)`
(first at `n = 90`) — and exactly `n - n_normal n - n_point n` with
`"trend"`; the three counts sum to exactly `n` (including `n = 0, 1, 2`) and
the trend count is never negative. The shuffled batch is an arbitrary
permutation of the generated list. -/
theorem c1_generate_batch_counts (n : ℕ) (hn : n ≤ 2 ^ 53)
    (f1 f2 : ℕ → Fin SAMPLES_PER_READING → ℝ) (f3 : ℕ → ℚ)
    (f4 : ℕ → Fin SAMPLES_PER_READING) (f5 : ℕ → Fin SAMPLES_PER_READING → ℝ)
    (shuffled : List Reading)
    (hperm : shuffled.Perm (generate_batch n f1 f2 f3 f4 f5)) :
    shuffled.length = n
    ∧ shuffled.countP (fun r => r.anomaly_type == "none") = (n_normal n).toNat
    ∧ shuffled.countP (fun r => r.anomaly_type == "point") = (n_point n).toNat
    ∧ shuffled.countP (fun r => r.anomaly_type == "trend") = (n_trend n).toNat
    ∧ 0 ≤ n_trend n
    ∧ (n_normal n).toNat + (n_point n).toNat + (n_trend n).toNat = n := by
  refine ⟨?_, ?_, ?_, ?_, n_trend_nonneg n hn, ?_⟩
  · rw [hperm.length_eq, generate_batch_length n hn]
  · rw [List.Perm.countP_eq _ hperm, batch_count_none]
  · rw [List.Perm.countP_eq _ hperm, batch_count_point]
  · rw [List.Perm.countP_eq _ hperm, batch_count_trend]
  · have h1 := n_normal_nonneg n
    have h2 := n_point_nonneg n
    have h3 := n_trend_nonneg n hn
    have h4 := n_counts_sum n
    omega

/-- Witness for C1 (amended) at the concrete input `n = 2` (identity
shuffle). -/
theorem c1_generate_batch_counts_witness :
    (2 : ℕ) ≤ 2 ^ 53
    ∧ (generate_batch 2 noiseZero noiseZero spikeConst idxZero noiseZero).Perm
      (generate_batch 2 noiseZero noiseZero spikeConst idxZero noiseZero)
    ∧ ((generate_batch 2 noiseZero noiseZero spikeConst idxZero noiseZero).length = 2
      ∧ (generate_batch 2 noiseZero noiseZero spikeConst idxZero noiseZero).countP
          (fun r => r.anomaly_type == "none") = (n_normal 2).toNat
      ∧ (generate_batch 2 noiseZero noiseZero spikeConst idxZero noiseZero).countP
          (fun r => r.anomaly_type == "point") = (n_point 2).toNat
      ∧ (generate_batch 2 noiseZero noiseZero spikeConst idxZero noiseZero).countP
          (fun r => r.anomaly_type == "trend") = (n_trend 2).toNat
      ∧ 0 ≤ n_trend 2
      ∧ (n_normal 2).toNat + (n_point 2).toNat + (n_trend 2).toNat = 2) :=
  ⟨by norm_num, List.Perm.refl _,
    c1_generate_batch_counts 2 (by norm_num) noiseZero noiseZero spikeConst idxZero
      noiseZero _ (List.Perm.refl _)⟩

/-- C2 counterexample: `compute_thd` does not return a value for every
non-empty signal — on the length-1 signal `[1.0]` the fundamental bin is
clamped up to 1 while the half-spectrum slice only has index 0, so
`spectrum[fund_bin]` raises `IndexError` (modelled as `none`). -/
theorem c2_compute_thd_counterexample : compute_thd [(1:ℝ)] 50 50 = none :=
  compute_thd_singleton 1 50 50

/-- C2 (amended): for every signal of length ≥ 2, `compute_thd` zero-pads to
`n_fft` = the least power of two ≥ the signal length, locates the fundamental
bin as `round(fundamental * n_fft / fs)` clamped to `[1, n_fft/2]`, and
returns 0 if the fundamental magnitude is ≤ 0, else
`100 * sqrt(sum of squared magnitudes at bins 2×..5× the fundamental bin,
skipping bins beyond the half spectrum) / fundamental magnitude`, rounded to
4 decimal places (`thdSpec` spells out exactly that computation). -/
theorem c2_compute_thd_characterization (sig : List ℝ) (fs fund : ℚ)
    (h : 2 ≤ sig.length) :
    (sig.length ≤ nextPow2 sig.length
      ∧ (∀ m : ℕ, sig.length ≤ 2 ^ m → nextPow2 sig.length ≤ 2 ^ m))
    ∧ compute_thd sig fs fund = some (thdSpec sig fs fund) :=
  ⟨⟨nextPow2_ge _, fun m hm => nextPow2_least _ m hm⟩,
    compute_thd_eq_thdSpec sig fs fund h⟩

/-- Witness for C2 (amended) at the concrete signal `[0, 0]`. -/
theorem c2_compute_thd_characterization_witness :
    2 ≤ (List.replicate 2 (0:ℝ)).length
    ∧ (((List.replicate 2 (0:ℝ)).length ≤ nextPow2 (List.replicate 2 (0:ℝ)).length
        ∧ (∀ m : ℕ, (List.replicate 2 (0:ℝ)).length ≤ 2 ^ m
          → nextPow2 (List.replicate 2 (0:ℝ)).length ≤ 2 ^ m))
      ∧ compute_thd (List.replicate 2 (0:ℝ)) 50 50
          = some (thdSpec (List.replicate 2 (0:ℝ)) 50 50)) :=
  ⟨by simp, c2_compute_thd_characterization (List.replicate 2 (0:ℝ)) 50 50 (by simp)⟩

/-- C3: if either normalized cutoff `lowcut/(fs/2)` or `highcut/(fs/2)` falls
outside the open interval (0, 1), or if the Butterworth design / zero-phase
application fails (the opaque scipy call `bf` returns `none`, modelling the
caught `ValueError`/`LinAlgError`), then `bandpass_filter` returns the input
signal unchanged (and, being a total function, never raises). -/
theorem c3_bandpass_degenerate_fallback (bf : ℚ → ℚ → List ℝ → Option (List ℝ))
    (sig : List ℝ) (lowcut highcut fs : ℚ)
    (h : ¬(0 < lowcut / (fs / 2) ∧ lowcut / (fs / 2) < 1)
      ∨ ¬(0 < highcut / (fs / 2) ∧ highcut / (fs / 2) < 1)
      ∨ bf (lowcut / (0.5 * fs)) (highcut / (0.5 * fs)) sig = none) :
    bandpass_filter bf sig lowcut highcut fs = sig := by
  have hnyq : fs / 2 = 0.5 * fs := by
    rw [show (0.5 : ℚ) = 1 / 2 by norm_num]
    ring
  unfold bandpass_filter
  by_cases hc : 1 ≤ lowcut / (0.5 * fs) ∨ 1 ≤ highcut / (0.5 * fs)
      ∨ lowcut / (0.5 * fs) ≤ 0 ∨ highcut / (0.5 * fs) ≤ 0
  · rw [if_pos hc]
  · rw [if_neg hc]
    push_neg at hc
    obtain ⟨hc1, hc2, hc3, hc4⟩ := hc
    rcases h with h | h | h
    · rw [hnyq] at h
      exact absurd ⟨hc3, hc1⟩ h
    · rw [hnyq] at h
      exact absurd ⟨hc4, hc2⟩ h
    · rw [h]

/-- Witness for C3: cutoffs 45/55 Hz with `fs = 50` (normalized high cutoff
2.2 ∉ (0,1)) and a failing filter, on the signal `[1.0]`. -/
theorem c3_bandpass_degenerate_fallback_witness :
    (¬(0 < (45:ℚ) / (50 / 2) ∧ (45:ℚ) / (50 / 2) < 1)
      ∨ ¬(0 < (55:ℚ) / (50 / 2) ∧ (55:ℚ) / (50 / 2) < 1)
      ∨ (fun _ _ _ => (none : Option (List ℝ)))
          ((45:ℚ) / (0.5 * 50)) ((55:ℚ) / (0.5 * 50)) [(1:ℝ)] = none)
    ∧ bandpass_filter (fun _ _ _ => none) [(1:ℝ)] 45 55 50 = [(1:ℝ)] :=
  ⟨Or.inl (by norm_num),
    c3_bandpass_degenerate_fallback (fun _ _ _ => none) [(1:ℝ)] 45 55 50
      (Or.inl (by norm_num))⟩

/-- C4: every reading from `generate_point_anomaly` has anomaly type
`"point"`, exactly one sample (at the drawn index) overwritten with the drawn
spike value from [1.3, 1.5] — every other sample equals the base sine wave —
and severity `"high"` iff the spike exceeds 1.4 pu, `"medium"` iff the spike
lies in [1.3, 1.4]. -/
theorem c4_point_anomaly_spike_severity (noise : Fin SAMPLES_PER_READING → ℝ)
    (sv : ℚ) (idx : Fin SAMPLES_PER_READING)
    (h1 : (1.3 : ℚ) ≤ sv) (h2 : sv ≤ (1.5 : ℚ)) :
    (generate_point_anomaly noise sv idx).anomaly_type = "point"
    ∧ (generate_point_anomaly noise sv idx).voltage[(idx : ℕ)]? = some (sv : ℝ)
    ∧ (∀ j : ℕ, j ≠ (idx : ℕ)
      → (generate_point_anomaly noise sv idx).voltage[j]?
        = (pureSineWave NOMINAL_VOLTAGE)[j]?)
    ∧ ((generate_point_anomaly noise sv idx).severity = "high" ↔ (1.4 : ℚ) < sv)
    ∧ ((generate_point_anomaly noise sv idx).severity = "medium"
      ↔ ((1.3 : ℚ) ≤ sv ∧ sv ≤ (1.4 : ℚ))) := by
  refine ⟨rfl, ?_, ?_, ?_, ?_⟩
  · show ((pureSineWave NOMINAL_VOLTAGE).set (idx : ℕ) ((sv : ℚ) : ℝ))[(idx : ℕ)]?
      = some (sv : ℝ)
    apply List.getElem?_set_self
    rw [pureSineWave_length]
    exact idx.isLt
  · intro j hj
    show ((pureSineWave NOMINAL_VOLTAGE).set (idx : ℕ) ((sv : ℚ) : ℝ))[j]?
      = (pureSineWave NOMINAL_VOLTAGE)[j]?
    exact List.getElem?_set_ne (Ne.symm hj)
  · show (if (1.4 : ℚ) < sv then "high" else "medium") = "high" ↔ (1.4 : ℚ) < sv
    split_ifs with hc
    · exact iff_of_true rfl hc
    · exact iff_of_false (by decide) hc
  · show (if (1.4 : ℚ) < sv then "high" else "medium") = "medium"
      ↔ ((1.3 : ℚ) ≤ sv ∧ sv ≤ (1.4 : ℚ))
    split_ifs with hc
    · exact iff_of_false (by decide) (fun hx => absurd hc (not_lt.mpr hx.2))
    · exact iff_of_true rfl ⟨h1, not_lt.mp hc⟩

/-- Witness for C4 at the concrete spike 1.45 pu, index 0, zero noise. -/
theorem c4_point_anomaly_spike_severity_witness :
    ((1.3 : ℚ) ≤ 1.45 ∧ (1.45 : ℚ) ≤ 1.5)
    ∧ ((generate_point_anomaly (noiseZero 0) 1.45 (idxZero 0)).anomaly_type = "point"
      ∧ (generate_point_anomaly (noiseZero 0) 1.45 (idxZero 0)).voltage[(idxZero 0 : ℕ)]?
          = some ((1.45 : ℚ) : ℝ)
      ∧ (∀ j : ℕ, j ≠ (idxZero 0 : ℕ)
        → (generate_point_anomaly (noiseZero 0) 1.45 (idxZero 0)).voltage[j]?
          = (pureSineWave NOMINAL_VOLTAGE)[j]?)
      ∧ ((generate_point_anomaly (noiseZero 0) 1.45 (idxZero 0)).severity = "high"
        ↔ (1.4 : ℚ) < 1.45)
      ∧ ((generate_point_anomaly (noiseZero 0) 1.45 (idxZero 0)).severity = "medium"
        ↔ ((1.3 : ℚ) ≤ 1.45 ∧ (1.45 : ℚ) ≤ 1.4))) :=
  ⟨⟨by norm_num, by norm_num⟩,
    c4_point_anomaly_spike_severity (noiseZero 0) 1.45 (idxZero 0)
      (by norm_num) (by norm_num)⟩

/-- C5: every reading produced by `generate_normal_signal`,
`generate_point_anomaly` or `generate_trend_anomaly` — and hence every
reading of any (arbitrarily shuffled) batch from `generate_batch` — has
voltage and frequency arrays of length exactly 50. -/
theorem c5_reading_lengths :
    (∀ noise, (generate_normal_signal noise).voltage.length = 50
      ∧ (generate_normal_signal noise).frequency.length = 50)
    ∧ (∀ noise sv idx, (generate_point_anomaly noise sv idx).voltage.length = 50
      ∧ (generate_point_anomaly noise sv idx).frequency.length = 50)
    ∧ (∀ noise, (generate_trend_anomaly noise).voltage.length = 50
      ∧ (generate_trend_anomaly noise).frequency.length = 50)
    ∧ (∀ (n : ℕ) (f1 f2 : ℕ → Fin SAMPLES_PER_READING → ℝ) (f3 : ℕ → ℚ)
        (f4 : ℕ → Fin SAMPLES_PER_READING) (f5 : ℕ → Fin SAMPLES_PER_READING → ℝ)
        (shuffled : List Reading),
        shuffled.Perm (generate_batch n f1 f2 f3 f4 f5)
        → ∀ r ∈ shuffled, r.voltage.length = 50 ∧ r.frequency.length = 50) := by
  have hnormal : ∀ noise, (generate_normal_signal noise).voltage.length = 50
      ∧ (generate_normal_signal noise).frequency.length = 50 :=
    fun noise => ⟨pureSineWave_length _, frequencyChannel_length _⟩
  have hpoint : ∀ noise sv idx, (generate_point_anomaly noise sv idx).voltage.length = 50
      ∧ (generate_point_anomaly noise sv idx).frequency.length = 50 := by
    intro noise sv idx
    constructor
    · show ((pureSineWave NOMINAL_VOLTAGE).set (idx : ℕ) ((sv : ℚ) : ℝ)).length = 50
      rw [List.length_set, pureSineWave_length]
    · exact frequencyChannel_length _
  have htrend : ∀ noise, (generate_trend_anomaly noise).voltage.length = 50
      ∧ (generate_trend_anomaly noise).frequency.length = 50 := by
    intro noise
    constructor
    · show ((List.range SAMPLES_PER_READING).map _).length = 50
      rw [List.length_map, List.length_range]
      rfl
    · exact frequencyChannel_length _
  refine ⟨hnormal, hpoint, htrend, ?_⟩
  intro n f1 f2 f3 f4 f5 shuffled hperm r hr
  rcases mem_generate_batch (hperm.mem_iff.mp hr) with ⟨i, rfl⟩ | ⟨i, rfl⟩ | ⟨i, rfl⟩
  · exact hnormal _
  · exact hpoint _ _ _
  · exact htrend _

/-- Witness for C5: the batch of size 1 (identity shuffle) consists of one
trend reading, whose arrays have length 50. -/
theorem c5_reading_lengths_witness :
    (generate_batch 1 noiseZero noiseZero spikeConst idxZero noiseZero).Perm
      (generate_batch 1 noiseZero noiseZero spikeConst idxZero noiseZero)
    ∧ generate_trend_anomaly (noiseZero 0)
        ∈ generate_batch 1 noiseZero noiseZero spikeConst idxZero noiseZero
    ∧ ((generate_trend_anomaly (noiseZero 0)).voltage.length = 50
      ∧ (generate_trend_anomaly (noiseZero 0)).frequency.length = 50) := by
  have hbatch : generate_batch 1 noiseZero noiseZero spikeConst idxZero noiseZero
      = [generate_trend_anomaly (noiseZero 0)] := by
    unfold generate_batch
    have e1 : (n_normal 1).toNat = 0 := by decide
    have e2 : (n_point 1).toNat = 0 := by decide
    have e3 : (n_trend 1).toNat = 1 := by decide
    rw [e1, e2, e3]
    rfl
  have hmem : generate_trend_anomaly (noiseZero 0)
      ∈ generate_batch 1 noiseZero noiseZero spikeConst idxZero noiseZero := by
    rw [hbatch]
    exact List.mem_singleton_self _
  exact ⟨List.Perm.refl _, hmem,
    c5_reading_lengths.2.2.2 1 noiseZero noiseZero spikeConst idxZero noiseZero _
      (List.Perm.refl _) _ hmem⟩

lemma npMax_map_abs_some (l : List ℝ) (h : l ≠ []) :
    ∃ m, npMax (l.map (fun v => |v|)) = some m ∧ 0 ≤ m := by
  cases l with
  | nil => exact absurd rfl h
  | cons x xs => exact ⟨_, rfl, foldl_max_nonneg (abs_nonneg x) _⟩

/-- C6 counterexample: `extract_features` does not return a feature dictionary
for every reading with finite, non-empty voltage and frequency arrays — on a
reading with the length-1 voltage `[1.0]` the THD step raises `IndexError`
(modelled as `none`), so the pipeline fails. -/
theorem c6_extract_features_counterexample :
    extract_features (fun _ _ _ => none) ⟨[1], [50], "none", "none"⟩ = none := by
  unfold extract_features
  rw [compute_thd_singleton]

/-- C6 (amended): for every reading whose voltage array has length ≥ 2 and
whose frequency array is non-empty, `extract_features` returns a feature
dictionary whose four numeric fields are rounded to 4 decimal digits and
non-negative, with `anomaly_type` and `severity` passed through unchanged. -/
theorem c6_feature_invariants (bf : ℚ → ℚ → List ℝ → Option (List ℝ))
    (r : Reading) (hv : 2 ≤ r.voltage.length) (hf : r.frequency ≠ []) :
    ∃ f, extract_features bf r = some f
      ∧ isRound4 f.rms_voltage ∧ 0 ≤ f.rms_voltage
      ∧ isRound4 f.thd_percent ∧ 0 ≤ f.thd_percent
      ∧ isRound4 f.frequency_deviation_hz ∧ 0 ≤ f.frequency_deviation_hz
      ∧ isRound4 f.peak_voltage ∧ 0 ≤ f.peak_voltage
      ∧ f.anomaly_type = r.anomaly_type ∧ f.severity = r.severity := by
  have hthd := compute_thd_eq_thdSpec r.voltage 50 50 hv
  have hvne : r.voltage ≠ [] := by
    intro he
    rw [he] at hv
    simp at hv
  obtain ⟨m, hm, hm0⟩ := npMax_map_abs_some r.voltage hvne
  have heq : extract_features bf r = some
      ⟨compute_rms r.voltage, thdSpec r.voltage 50 50,
        compute_frequency_deviation r.frequency, pyRound4 m,
        r.anomaly_type, r.severity⟩ := by
    unfold extract_features
    rw [bandpass_identity, hthd, hm]
  obtain ⟨ha, hb⟩ := compute_rms_isRound4_nonneg r.voltage
  obtain ⟨hc, hd⟩ := compute_thd_isRound4_nonneg hthd
  obtain ⟨he, hf2⟩ := compute_frequency_deviation_isRound4_nonneg r.frequency
  exact ⟨_, heq, ha, hb, hc, hd, he, hf2, pyRound4_isRound4 m, pyRound4_nonneg hm0,
    rfl, rfl⟩

/-- Witness for C6 (amended) on the reading with voltage `[0, 0]` and
frequency `[50]`. -/
theorem c6_feature_invariants_witness :
    2 ≤ (⟨List.replicate 2 0, [(50:ℝ)], "a", "b"⟩ : Reading).voltage.length
    ∧ (⟨List.replicate 2 0, [(50:ℝ)], "a", "b"⟩ : Reading).frequency ≠ []
    ∧ (∃ f, extract_features (fun _ _ _ => none)
          ⟨List.replicate 2 0, [(50:ℝ)], "a", "b"⟩ = some f
      ∧ isRound4 f.rms_voltage ∧ 0 ≤ f.rms_voltage
      ∧ isRound4 f.thd_percent ∧ 0 ≤ f.thd_percent
      ∧ isRound4 f.frequency_deviation_hz ∧ 0 ≤ f.frequency_deviation_hz
      ∧ isRound4 f.peak_voltage ∧ 0 ≤ f.peak_voltage
      ∧ f.anomaly_type = "a" ∧ f.severity = "b") :=
  ⟨by simp, by simp,
    c6_feature_invariants (fun _ _ _ => none) ⟨List.replicate 2 0, [(50:ℝ)], "a", "b"⟩
      (by simp) (by simp)⟩

/-- C7: `compute_rms` is the 4-decimal rounding of the square root of the mean
of the squared samples for a non-empty signal and 0.0 for an empty one
(`rmsSpec` is that description verbatim); consequently for the pure nominal
sine of amplitude `A ≥ 0` the computed RMS is within 4-decimal rounding
tolerance of `A / √2`, and equals 0.7071 for `A = 1`. -/
theorem c7_rms_characterization :
    (∀ sig : List ℝ, compute_rms sig = rmsSpec sig)
    ∧ (∀ A : ℝ, 0 ≤ A → |compute_rms (pureSineWave A) - A / Real.sqrt 2| ≤ 1 / 20000)
    ∧ compute_rms (pureSineWave 1) = 7071 / 10000 := by
  refine ⟨?_, ?_, ?_⟩
  · intro sig
    unfold compute_rms rmsSpec
    by_cases h : sig.length = 0
    · rw [if_pos h, if_pos (List.length_eq_zero.mp h)]
    · rw [if_neg h, if_neg (fun he => h (by rw [he]; rfl))]
  · intro A hA
    rw [compute_rms_pureSineWave A hA]
    exact abs_pyRound4_sub _
  · rw [compute_rms_pureSineWave 1 (by norm_num)]
    exact pyRound4_inv_sqrt_two

/-- Witness for C7 at the concrete amplitude `A = 1`. -/
theorem c7_rms_characterization_witness :
    (0:ℝ) ≤ 1 ∧ |compute_rms (pureSineWave 1) - 1 / Real.sqrt 2| ≤ 1 / 20000 :=
  ⟨by norm_num, c7_rms_characterization.2.1 1 (by norm_num)⟩

/-- C8: on a reading whose voltage is the all-zero array of length 50,
`extract_features` returns (without failing) a dictionary with
`rms_voltage = 0`, `thd_percent = 0` and `peak_voltage = 0`. -/
theorem c8_zero_voltage_features (bf : ℚ → ℚ → List ℝ → Option (List ℝ))
    (fr : List ℝ) (a s : String) :
    ∃ f, extract_features bf ⟨List.replicate 50 0, fr, a, s⟩ = some f
      ∧ f.rms_voltage = 0 ∧ f.thd_percent = 0 ∧ f.peak_voltage = 0 :=
  ⟨_, extract_features_replicate_zero bf fr a s 50 (by norm_num), rfl, rfl, rfl⟩

/-- C9: with the fixed arguments `extract_features` passes to
`bandpass_filter` (45, 55, fs = 50) the normalized high cutoff is
`55/25 = 11/5 ≥ 1`, so the filter returns its input unchanged for every
signal; hence whenever `extract_features` returns a feature dictionary, its
`peak_voltage` is the 4-decimal rounding of the maximum absolute value of the
raw (unfiltered) voltage array. -/
theorem c9_peak_uses_raw_voltage :
    ((55:ℚ) / (50 / 2) = 11 / 5 ∧ 1 ≤ (55:ℚ) / (50 / 2))
    ∧ (∀ (bf : ℚ → ℚ → List ℝ → Option (List ℝ)) (sig : List ℝ),
        bandpass_filter bf sig 45 55 50 = sig)
    ∧ (∀ (bf : ℚ → ℚ → List ℝ → Option (List ℝ)) (r : Reading) (f : Features),
        extract_features bf r = some f
        → ∃ m, npMax (r.voltage.map (fun v => |v|)) = some m
          ∧ f.peak_voltage = pyRound4 m) := by
  refine ⟨⟨by norm_num, by norm_num⟩, fun bf sig => bandpass_identity bf sig, ?_⟩
  intro bf r f h
  unfold extract_features at h
  rw [bandpass_identity] at h
  split at h
  · exact absurd h (by simp)
  · split at h
    · exact absurd h (by simp)
    · rename_i thd hthd m hm
      rw [Option.some_inj] at h
      exact ⟨m, hm, by rw [← h]⟩

/-- Witness for C9 on the reading with voltage `[0, 0]`. -/
theorem c9_peak_uses_raw_voltage_witness :
    extract_features (fun _ _ _ => none) ⟨List.replicate 2 0, [], "a", "b"⟩
      = some ⟨0, 0, compute_frequency_deviation [], 0, "a", "b"⟩
    ∧ ∃ m, npMax ((List.replicate 2 (0:ℝ)).map (fun v => |v|)) = some m
      ∧ (⟨0, 0, compute_frequency_deviation [], 0, "a", "b"⟩ : Features).peak_voltage
        = pyRound4 m := by
  have h := extract_features_replicate_zero (fun _ _ _ => none) [] "a" "b" 2 (by norm_num)
  exact ⟨h, c9_peak_uses_raw_voltage.2.2 _ _ _ h⟩

/-- C10: on a reading with an empty voltage array, `extract_features` fails
(`none`, the `ValueError` of `np.max` on an empty array) even though
`compute_rms`, `compute_thd` and `compute_frequency_deviation` each recover
with 0.0 on empty input: the recovery does not extend to the pipeline. -/
theorem c10_empty_voltage_fails (bf : ℚ → ℚ → List ℝ → Option (List ℝ))
    (fr : List ℝ) (a s : String) :
    extract_features bf ⟨[], fr, a, s⟩ = none
    ∧ compute_rms [] = 0
    ∧ compute_thd [] 50 50 = some 0
    ∧ compute_frequency_deviation [] = 0
    ∧ npMax (([] : List ℝ).map (fun v => |v|)) = none := by
  refine ⟨?_, rfl, rfl, rfl, rfl⟩
  unfold extract_features
  rw [bandpass_identity]
  rfl
